import Mathlib

/-!
Verification of the commit-graph layout engine of a lane-based git history
viewer.  The development shallowly embeds the TypeScript/JavaScript source:

* `calculateLanes` — the Lane Allocator (graphUtils / GraphRenderer.calculateLanes),
* `areCommitsConsecutive` — the consecutiveness predicate of the Selection &
  Range Validator,
* `rangeActionMessage` — the payload computation of the range context-menu
  click handler (squash / cherry-pick range),
* `findIndex`, `passthroughSegments`, `hasOutgoing`, `outgoingConnectors` —
  the segment-emission decisions of the Edge Router (GraphCanvas / drawGraph),
* `maxLaneOf`, `canvasWidthOf`, `rowCanvasWidths` — the canvas sizing of the
  Row Renderer (GraphRenderer.drawGraph).

JavaScript `Map` objects (string keys, insertion ordered) are embedded as
association lists `List (String × Nat)` with operations `mapHas`, `mapGet`,
`mapSet`, `mapDelete`, `mapValues` mirroring `has` / `get` / `set` /
`delete` / `values`.  The unbounded `while` loop scanning for a free lane is
embedded as the fueled `findFreeLane`, called with fuel `|used| + 1`, which
is proved sufficient (`findFreeLane_not_mem`).
-/

/-- Commit record, mirroring the `GitCommit` interface (hash, shortHash,
message, date, author, parents, refs).  The descriptive fields are opaque
payload for the layout engine. -/
structure GitCommit where
  hash : String
  shortHash : String := ""
  message : String := ""
  date : String := ""
  author : String := ""
  parents : List String := []
  refs : List String := []
  deriving Repr, DecidableEq, Inhabited

/-- JS `Map.has`. -/
def mapHas (m : List (String × Nat)) (k : String) : Bool :=
  m.any (fun p => p.1 == k)

/-- JS `Map.get` (`none` plays the role of `undefined`). -/
def mapGet (m : List (String × Nat)) (k : String) : Option Nat :=
  (m.find? (fun p => p.1 == k)).map Prod.snd

/-- JS `Map.set`: update in place when the key is present, append otherwise. -/
def mapSet (m : List (String × Nat)) (k : String) (v : Nat) : List (String × Nat) :=
  if mapHas m k then m.map (fun p => if p.1 == k then (k, v) else p)
  else m ++ [(k, v)]

/-- JS `Map.delete`. -/
def mapDelete (m : List (String × Nat)) (k : String) : List (String × Nat) :=
  m.filter (fun p => p.1 != k)

/-- JS `Map.values`. -/
def mapValues (m : List (String × Nat)) : List Nat :=
  m.map Prod.snd

/-- The free-lane scan `let newLane = 0; while (usedLanes.has(newLane)) newLane++`
as a fueled loop; the allocator calls it with fuel `|usedLanes| + 1`,
which is enough to reach a free lane (`findFreeLane_not_mem`). -/
def findFreeLane (used : List Nat) (candidate : Nat) (fuel : Nat) : Nat :=
  match fuel with
  | 0 => candidate
  | fuel + 1 =>
    if candidate ∈ used then findFreeLane used (candidate + 1) fuel else candidate

/-- State threaded through the allocator's forward pass: the result map
`commitLanes`, the pending-reservation map `reservedLanes`, and the
never-used-lane counter `nextLane`. -/
structure LaneState where
  commitLanes : List (String × Nat)
  reservedLanes : List (String × Nat)
  nextLane : Nat
  deriving Repr, DecidableEq

/-- Body of the loop over a merge commit's additional parents
(`for (let j = 1; ...)` in `calculateLanes`): an unreserved extra parent is
reserved the first lane not currently present in `reservedLanes`'s value
set, and `nextLane` is bumped to exceed it. -/
def reserveExtraParent (acc : List (String × Nat) × Nat) (parent : String) :
    List (String × Nat) × Nat :=
  if mapHas acc.1 parent then acc
  else
    let usedLanes := mapValues acc.1
    let newLane := findFreeLane usedLanes 0 (usedLanes.length + 1)
    (mapSet acc.1 parent newLane, max acc.2 (newLane + 1))

/-- The `if (commit.parents.length > 0)` block of `calculateLanes`: the first
parent inherits the commit's lane when unreserved; each further parent goes
through `reserveExtraParent`. -/
def reserveParents (assignedLane : Nat) (parents : List String)
    (res : List (String × Nat)) (nl : Nat) : List (String × Nat) × Nat :=
  match parents with
  | [] => (res, nl)
  | firstParent :: rest =>
    let res1 := if mapHas res firstParent then res else mapSet res firstParent assignedLane
    rest.foldl reserveExtraParent (res1, nl)

/-- One iteration of `calculateLanes`'s main loop over the commit list: the
commit claims its reserved lane (removing the reservation) or takes a fresh
`nextLane`, records it in `commitLanes`, then reserves lanes for its
parents. -/
def processCommit (st : LaneState) (c : GitCommit) : LaneState :=
  if mapHas st.reservedLanes c.hash then
    let assignedLane := (mapGet st.reservedLanes c.hash).getD 0
    let r := reserveParents assignedLane c.parents
      (mapDelete st.reservedLanes c.hash) st.nextLane
    ⟨mapSet st.commitLanes c.hash assignedLane, r.1, r.2⟩
  else
    let r := reserveParents st.nextLane c.parents st.reservedLanes (st.nextLane + 1)
    ⟨mapSet st.commitLanes c.hash st.nextLane, r.1, r.2⟩

/-- Initial allocator state: empty maps, `nextLane = 0`. -/
def initLaneState : LaneState := ⟨[], [], 0⟩

/-- The Lane Allocator `calculateLanes(commits)`: a single forward pass
producing the commit-hash → lane map. -/
def calculateLanes (commits : List GitCommit) : List (String × Nat) :=
  (commits.foldl processCommit initLaneState).commitLanes

/-- The consecutiveness predicate `areCommitsConsecutive(commits, sortedIndices)`:
every adjacent pair of selected rows (newer at the lower index) must satisfy
`newer.parents.length === 1 && newer.parents.includes(older.hash)`.
Row indices index into `commits` (out-of-range access is modelled by the
`Inhabited` default; the UI only selects valid rows). -/
def areCommitsConsecutive (commits : List GitCommit) (sortedIndices : List Nat) : Bool :=
  match sortedIndices with
  | [] => true
  | [_] => true
  | i :: j :: rest =>
    let newer := commits.getD i default
    let older := commits.getD j default
    if newer.parents.length != 1 || !(newer.parents.contains older.hash) then false
    else areCommitsConsecutive commits (j :: rest)

/-- The range context-menu click handler's payload: sort the selected row
indices ascending, map them to hashes (newest → oldest), and take the first
parent of the commit at the last (highest, i.e. oldest) sorted index as the
base parent hash (`none` models `undefined` for a parentless oldest commit). -/
def rangeActionMessage (commits : List GitCommit) (selectedIndices : List Nat) :
    List String × Option String :=
  let sortedIndices := List.insertionSort (· ≤ ·) selectedIndices
  let hashes := sortedIndices.map (fun i => (commits.getD i default).hash)
  let oldestIndex := sortedIndices.getLastD 0
  let parentHash := (commits.getD oldestIndex default).parents.head?
  (hashes, parentHash)

/-- JS `commits.findIndex(c => c.hash === h)`: row index of a hash, `-1` when
the hash does not appear in the list. -/
def findIndex (commits : List GitCommit) (h : String) : Int :=
  match commits.findIdx? (fun c => c.hash == h) with
  | some i => (i : Int)
  | none => -1

/-- Passthrough segments drawn at row `index` (step 1 of the edge drawing):
for each earlier row `i < index` and each of its parents whose row index is
`> index`, with a lane in the lane map different from the row's own lane,
emit `(i, parentHash, parentLane)`. -/
def passthroughSegments (commits : List GitCommit) (lanes : List (String × Nat))
    (index : Nat) (lane : Nat) : List (Nat × String × Nat) :=
  ((List.range index).map (fun i =>
    (commits.getD i default).parents.filterMap (fun parent =>
      if findIndex commits parent > (index : Int) then
        match mapGet lanes parent with
        | some pl => if pl ≠ lane then some (i, parent, pl) else none
        | none => none
      else none))).flatten

/-- `hasOutgoing` of step 2 of the edge drawing: the lower half of the row's
own lane line is drawn iff some parent's row index is `> index`. -/
def hasOutgoing (commits : List GitCommit) (index : Nat) (c : GitCommit) : Bool :=
  c.parents.any (fun p => findIndex commits p > (index : Int))

/-- Outgoing cross-lane connectors of step 3 of the edge drawing: for each
parent whose row index is `> index` and whose lane is defined and differs
from the row's own lane, emit `(parentHash, parentLane)`. -/
def outgoingConnectors (commits : List GitCommit) (lanes : List (String × Nat))
    (index : Nat) (c : GitCommit) (lane : Nat) : List (String × Nat) :=
  c.parents.filterMap (fun parent =>
    if findIndex commits parent > (index : Int) then
      match mapGet lanes parent with
      | some parentLane => if parentLane ≠ lane then some (parent, parentLane) else none
      | none => none
    else none)

/-- Lane pitch in device-independent pixels (`LANE_WIDTH`). -/
def LANE_WIDTH : Nat := 18

/-- `Math.max(...this.commitLanes.values())` of `drawGraph`, for the
non-empty lane maps the renderer runs on (`drawGraph` only runs when
`commits.length > 0`). -/
def maxLaneOf (lanes : List (String × Nat)) : Nat :=
  (mapValues lanes).foldl max 0

/-- `canvasWidth` of `drawGraph`:
`maxLane = Math.max(...values) + 1; canvasWidth = maxLane * LANE_WIDTH + 12`. -/
def canvasWidthOf (lanes : List (String × Nat)) : Nat :=
  (maxLaneOf lanes + 1) * LANE_WIDTH + 12

/-- Width assigned to each row's canvas by `drawGraph`'s `forEach`: the single
`canvasWidth` value, computed once before the loop, is used for every row. -/
def rowCanvasWidths (commits : List GitCommit) : List Nat :=
  commits.map (fun _ => canvasWidthOf (calculateLanes commits))

/-- A commit list forming a single unbroken parent chain: each commit's
parents are exactly the next commit's hash, and the last commit has none. -/
def isLinearChain : List GitCommit → Bool
  | [] => true
  | [c] => c.parents.isEmpty
  | c :: d :: rest => (c.parents == [d.hash]) && isLinearChain (d :: rest)

/-- The allocator's running invariant: pending reservations give distinct
lanes to distinct hashes, and every reserved lane and every lane assigned so
far is strictly below `nextLane`. -/
def LaneInvariant (st : LaneState) : Prop :=
  (∀ p ∈ st.reservedLanes, ∀ q ∈ st.reservedLanes, p.1 ≠ q.1 → p.2 ≠ q.2) ∧
  (∀ p ∈ st.reservedLanes, p.2 < st.nextLane) ∧
  (∀ p ∈ st.commitLanes, p.2 < st.nextLane)

/-- The end-to-end scenario commit list of the spec (§8). -/
def scenarioCommits : List GitCommit :=
  [ { hash := "C1", parents := ["C2"] },
    { hash := "C2", parents := ["C3", "C4"] },
    { hash := "C3", parents := ["C5"] },
    { hash := "C4", parents := ["C5"] },
    { hash := "C5" } ]

/-- A commit listing itself as its own parent (input-contract violation). -/
def selfParentCommit : GitCommit := { hash := "A", parents := ["A"] }

/-- A non-topologically ordered list: the parent `A` appears before its
child `B`. -/
def nonTopoCommits : List GitCommit :=
  [ { hash := "A" }, { hash := "B", parents := ["A"] } ]

/-- A two-commit selection scenario: `h1`'s parent is `h2`, `h2`'s parent is
`p`. -/
def squashDemo : List GitCommit :=
  [ { hash := "h1", parents := ["h2"] },
    { hash := "h2", parents := ["p"] } ]

/-- A three-commit linear chain `A → B → C`. -/
def chainDemo : List GitCommit :=
  [ { hash := "A", parents := ["B"] },
    { hash := "B", parents := ["C"] },
    { hash := "C" } ]

/-- The allocator invariant, phrased over the reservation map `res`, the
lane map `cl` and the counter `nl` (so it can be threaded through the
parent-reservation loop, whose accumulator does not carry `cl`). -/
def ResInvariant (res cl : List (String × Nat)) (nl : Nat) : Prop :=
  (∀ p ∈ res, ∀ q ∈ res, p.1 ≠ q.1 → p.2 ≠ q.2) ∧
  (∀ p ∈ res, p.2 < nl) ∧
  (∀ p ∈ cl, p.2 < nl)

/-! ### Association-list map lemmas -/

lemma mapHas_iff (m : List (String × Nat)) (k : String) :
    mapHas m k = true ↔ ∃ p ∈ m, p.1 = k := by
  simp [mapHas, List.any_eq_true]

lemma mapGet_mem {m : List (String × Nat)} {k : String} {v : Nat}
    (h : mapGet m k = some v) : (k, v) ∈ m := by
  unfold mapGet at h
  cases hf : m.find? (fun p => p.1 == k) with
  | none => rw [hf] at h; simp at h
  | some q =>
    rw [hf] at h
    simp at h
    have h1 : q.1 = k := by simpa using List.find?_some hf
    have h2 := List.mem_of_find?_eq_some hf
    have hq : q = (k, v) := by
      cases q
      simp_all
    rwa [hq] at h2

lemma mapGet_isSome_of_has {m : List (String × Nat)} {k : String}
    (h : mapHas m k = true) : ∃ v, mapGet m k = some v := by
  rw [mapHas_iff] at h
  obtain ⟨p, hp, hk⟩ := h
  have hs : (m.find? (fun p => p.1 == k)).isSome = true := by
    rw [List.find?_isSome]
    exact ⟨p, hp, by simp [hk]⟩
  obtain ⟨q, hq⟩ := Option.isSome_iff_exists.1 hs
  exact ⟨q.2, by simp [mapGet, hq]⟩

lemma mapGet_eq_zero {m : List (String × Nat)} {k : String}
    (hz : ∀ p ∈ m, p.2 = 0) (h : mapHas m k = true) : mapGet m k = some 0 := by
  obtain ⟨v, hv⟩ := mapGet_isSome_of_has h
  have h0 : v = 0 := hz _ (mapGet_mem hv)
  rw [hv, h0]

lemma mapSet_of_not_has {m : List (String × Nat)} {k : String} (v : Nat)
    (h : mapHas m k = false) : mapSet m k v = m ++ [(k, v)] := by
  simp [mapSet, h]

lemma mem_mapSet {m : List (String × Nat)} {k : String} {v : Nat} {q : String × Nat}
    (h : q ∈ mapSet m k v) : q = (k, v) ∨ q ∈ m := by
  unfold mapSet at h
  by_cases hmk : mapHas m k
  · rw [if_pos hmk] at h
    obtain ⟨p, hp, hpq⟩ := List.mem_map.1 h
    by_cases hk : (p.1 == k) = true
    · left; rw [← hpq]; simp [hk]
    · right; rw [← hpq]; simp only [hk, if_false]; exact hp
  · rw [if_neg hmk] at h
    rcases List.mem_append.1 h with h | h
    · right; exact h
    · left; simpa using h

lemma mapHas_mapSet_self (m : List (String × Nat)) (k : String) (v : Nat) :
    mapHas (mapSet m k v) k = true := by
  by_cases hmk : mapHas m k
  · rw [mapSet, if_pos hmk, mapHas_iff]
    obtain ⟨p, hp, hk⟩ := (mapHas_iff m k).1 hmk
    exact ⟨(k, v), List.mem_map.2 ⟨p, hp, by simp [hk]⟩, rfl⟩
  · rw [mapSet, if_neg hmk, mapHas_iff]
    exact ⟨(k, v), by simp, rfl⟩

lemma mapHas_mapSet_of_has {m : List (String × Nat)} {k h : String} {v : Nat}
    (hh : mapHas m h = true) : mapHas (mapSet m k v) h = true := by
  rw [mapHas_iff] at hh
  obtain ⟨p, hp, hpk⟩ := hh
  by_cases hmk : mapHas m k
  · rw [mapSet, if_pos hmk, mapHas_iff]
    by_cases hpk2 : (p.1 == k) = true
    · refine ⟨(k, v), List.mem_map.2 ⟨p, hp, by simp [hpk2]⟩, ?_⟩
      have : p.1 = k := by simpa using hpk2
      rw [← this, hpk]
    · exact ⟨p, List.mem_map.2 ⟨p, hp, by simp [hpk2]⟩, hpk⟩
  · rw [mapSet, if_neg hmk, mapHas_iff]
    exact ⟨p, List.mem_append.2 (Or.inl hp), hpk⟩

lemma find?_map_set (t : List (String × Nat)) (k h : String) (v : Nat) (hne : h ≠ k) :
    List.find? (fun p => p.1 == h) (t.map (fun p => if p.1 == k then (k, v) else p)) =
      List.find? (fun p => p.1 == h) t := by
  induction t with
  | nil => rfl
  | cons p t ih =>
    simp only [List.map_cons]
    by_cases hp : (p.1 == k) = true
    · have hpk : p.1 = k := by simpa using hp
      have h1 : (((k, v) : String × Nat).1 == h) = false := by
        simp [Ne.symm hne]
      have h2 : (p.1 == h) = false := by simp [hpk, Ne.symm hne]
      rw [if_pos hp, List.find?_cons_of_neg _ (by simp [h1]),
        List.find?_cons_of_neg _ (by simp [h2])]
      exact ih
    · rw [if_neg hp]
      by_cases hph : (p.1 == h) = true
      · rw [List.find?_cons_of_pos (p := fun (q : String × Nat) => q.1 == h) _ hph,
          List.find?_cons_of_pos (p := fun (q : String × Nat) => q.1 == h) _ hph]
      · rw [List.find?_cons_of_neg (p := fun (q : String × Nat) => q.1 == h) _ hph,
          List.find?_cons_of_neg (p := fun (q : String × Nat) => q.1 == h) _ hph]
        exact ih

lemma mapGet_mapSet_ne {m : List (String × Nat)} {k h : String} {v : Nat}
    (hne : h ≠ k) : mapGet (mapSet m k v) h = mapGet m h := by
  by_cases hmk : mapHas m k
  · rw [mapSet, if_pos hmk]
    unfold mapGet
    rw [find?_map_set m k h v hne]
  · rw [mapSet, if_neg hmk]
    unfold mapGet
    rw [List.find?_append]
    have hnone : List.find? (fun p => p.1 == h) [(k, v)] = none := by
      simp [Ne.symm hne]
    rw [hnone, Option.or_none]

/-! ### Free-lane scan lemmas -/

lemma findFreeLane_spec (used : List Nat) :
    ∀ fuel start, (∃ m, start ≤ m ∧ m < start + fuel ∧ m ∉ used) →
      findFreeLane used start fuel ∉ used ∧
      start ≤ findFreeLane used start fuel ∧
      (∀ j, start ≤ j → j < findFreeLane used start fuel → j ∈ used) := by
  intro fuel
  induction fuel with
  | zero =>
    rintro start ⟨m, h1, h2, _⟩
    omega
  | succ f ih =>
    rintro start ⟨m, h1, h2, h3⟩
    unfold findFreeLane
    by_cases hs : start ∈ used
    · rw [if_pos hs]
      have hm : start + 1 ≤ m := by
        rcases Nat.eq_or_lt_of_le h1 with rfl | hlt
        · exact absurd hs h3
        · omega
      obtain ⟨hfree, hge, hleast⟩ := ih (start + 1) ⟨m, hm, by omega, h3⟩
      refine ⟨hfree, by omega, ?_⟩
      intro j hj1 hj2
      rcases Nat.eq_or_lt_of_le hj1 with rfl | hlt
      · exact hs
      · exact hleast j hlt hj2
    · rw [if_neg hs]
      exact ⟨hs, le_refl _, fun j hj1 hj2 => absurd (lt_of_le_of_lt hj1 hj2) (lt_irrefl _)⟩

lemma exists_free_le (used : List Nat) : ∃ m, m ≤ used.length ∧ m ∉ used := by
  by_contra hcon
  push_neg at hcon
  have hsub : Finset.range (used.length + 1) ⊆ used.toFinset := by
    intro m hm
    rw [Finset.mem_range, Nat.lt_succ_iff] at hm
    exact List.mem_toFinset.2 (hcon m hm)
  have hcard := Finset.card_le_card hsub
  rw [Finset.card_range] at hcard
  have hle := used.toFinset_card_le
  omega

lemma findFreeLane_not_mem (used : List Nat) :
    findFreeLane used 0 (used.length + 1) ∉ used ∧
    findFreeLane used 0 (used.length + 1) ≤ used.length ∧
    (∀ j < findFreeLane used 0 (used.length + 1), j ∈ used) := by
  obtain ⟨m, hm1, hm2⟩ := exists_free_le used
  obtain ⟨h1, _, h3⟩ := findFreeLane_spec used (used.length + 1) 0 ⟨m, Nat.zero_le _, by omega, hm2⟩
  refine ⟨h1, ?_, fun j hj => h3 j (Nat.zero_le _) hj⟩
  by_contra hgt
  push_neg at hgt
  exact hm2 (h3 m (Nat.zero_le _) (by omega))

lemma length_one_mem_iff {l : List String} {a : String} :
    (l.length = 1 ∧ a ∈ l) ↔ l = [a] := by
  constructor
  · rintro ⟨hlen, hmem⟩
    match l, hlen with
    | [x], _ =>
      simp at hmem
      rw [hmem]
  · rintro rfl
    simp

/-! ### Claim theorems -/

/-- C1: `areCommitsConsecutive` over a selected set of row indices sorted
ascending returns `true` iff every adjacent pair (newer at the lower index,
older at the next index) satisfies: the newer commit's parent list is exactly
the one-element list holding the older commit's hash; and it is `true` for
every empty or single-element selection. -/
theorem areCommitsConsecutive_iff_chain (commits : List GitCommit) (sortedIndices : List Nat) :
    (areCommitsConsecutive commits sortedIndices = true ↔
      List.Chain' (fun i j =>
        (commits.getD i default).parents = [(commits.getD j default).hash]) sortedIndices) ∧
    areCommitsConsecutive commits [] = true ∧
    (∀ i, areCommitsConsecutive commits [i] = true) := by
  refine ⟨?_, rfl, fun i => rfl⟩
  induction sortedIndices with
  | nil => simp [areCommitsConsecutive]
  | cons i t ih =>
    cases t with
    | nil => simp [areCommitsConsecutive]
    | cons j rest =>
      rw [List.chain'_cons, ← ih]
      show (if (commits.getD i default).parents.length != 1 ||
          !((commits.getD i default).parents.contains (commits.getD j default).hash)
        then false
        else areCommitsConsecutive commits (j :: rest)) = true ↔ _
      by_cases hc : ((commits.getD i default).parents.length != 1 ||
          !((commits.getD i default).parents.contains (commits.getD j default).hash)) = true
      · rw [if_pos hc]
        simp only [Bool.or_eq_true, bne_iff_ne, Bool.not_eq_true'] at hc
        constructor
        · intro h
          exact absurd h (by simp)
        · rintro ⟨hr, _⟩
          exfalso
          rcases hc with hlen | hcon
          · exact hlen (by rw [hr]; rfl)
          · rw [hr] at hcon
            simp at hcon
      · rw [if_neg hc]
        simp only [Bool.or_eq_true, bne_iff_ne, Bool.not_eq_true', not_or, not_not,
          Bool.not_eq_false] at hc
        obtain ⟨h1, h2⟩ := hc
        have hmem : (commits.getD j default).hash ∈ (commits.getD i default).parents := by
          simpa using h2
        have heq : (commits.getD i default).parents = [(commits.getD j default).hash] :=
          length_one_mem_iff.1 ⟨h1, hmem⟩
        constructor
        · intro h
          exact ⟨heq, h⟩
        · rintro ⟨_, h⟩
          exact h

/-- C3: on the end-to-end scenario commit list
`[C1(parents=[C2]), C2(parents=[C3,C4]), C3(parents=[C5]), C4(parents=[C5]), C5]`
the Lane Allocator returns exactly the lane map
`{C1 ↦ 0, C2 ↦ 0, C3 ↦ 0, C4 ↦ 1, C5 ↦ 0}`. -/
theorem calculateLanes_endToEnd :
    calculateLanes scenarioCommits =
      [("C1", 0), ("C2", 0), ("C3", 0), ("C4", 1), ("C5", 0)] := by
  decide

/-- C7: the free-lane scan, run with fuel `|reservedLanes| + 1` as in
`reserveExtraParent`, already reaches a lane outside the reservation map's
value set (and stays `≤ |reservedLanes|`), so the allocator's only loop of
unbounded syntax has a deterministic bound proportional to the number of
pending reservations; the allocator also runs to completion on a self-parent
commit and on a non-topologically ordered list. -/
theorem freeLaneScan_bounded (res : List (String × Nat)) :
    findFreeLane (mapValues res) 0 ((mapValues res).length + 1) ∉ mapValues res ∧
    findFreeLane (mapValues res) 0 ((mapValues res).length + 1) ≤ res.length ∧
    calculateLanes [selfParentCommit] = [("A", 0)] ∧
    calculateLanes nonTopoCommits = [("A", 0), ("B", 1)] := by
  obtain ⟨h1, h2, _⟩ := findFreeLane_not_mem (mapValues res)
  refine ⟨h1, ?_, by decide, by decide⟩
  simpa [mapValues] using h2

/-- C8 counterexample: on the single-commit list the lane map is `{A ↦ 0}`,
so the claimed width `(max lane + 1) × LANE_WIDTH` is `18`, but `drawGraph`
computes `canvasWidth = (max lane + 1) * LANE_WIDTH + 12 = 30`. -/
theorem canvasWidth_claim_counterexample :
    canvasWidthOf (calculateLanes [{ hash := "A" }]) = 30 ∧
    (maxLaneOf (calculateLanes [{ hash := "A" }]) + 1) * LANE_WIDTH = 18 ∧
    canvasWidthOf (calculateLanes [{ hash := "A" }]) ≠
      (maxLaneOf (calculateLanes [{ hash := "A" }]) + 1) * LANE_WIDTH := by
  refine ⟨by decide, by decide, by decide⟩

/-- C8 (amended): for every non-empty commit list the Row Renderer computes
one canvas width equal to (global maximum lane + 1) × lane pitch **plus a
fixed 12-pixel margin**, and every row's drawing surface uses that same
width. -/
theorem canvasWidth_uniform (commits : List GitCommit) (h : commits ≠ []) :
    canvasWidthOf (calculateLanes commits) =
      (maxLaneOf (calculateLanes commits) + 1) * LANE_WIDTH + 12 ∧
    rowCanvasWidths commits ≠ [] ∧
    ∀ w ∈ rowCanvasWidths commits, w = canvasWidthOf (calculateLanes commits) := by
  refine ⟨rfl, ?_, ?_⟩
  · simp [rowCanvasWidths, h]
  · intro w hw
    obtain ⟨c, _, hcw⟩ := List.mem_map.1 hw
    exact hcw.symm

/-- Witness for `canvasWidth_uniform` at the single-commit list. -/
theorem canvasWidth_uniform_witness :
    ([{ hash := "A" }] : List GitCommit) ≠ [] ∧
    (canvasWidthOf (calculateLanes [{ hash := "A" }]) =
        (maxLaneOf (calculateLanes [{ hash := "A" }]) + 1) * LANE_WIDTH + 12 ∧
      rowCanvasWidths [{ hash := "A" }] ≠ [] ∧
      ∀ w ∈ rowCanvasWidths [{ hash := "A" }],
        w = canvasWidthOf (calculateLanes [{ hash := "A" }])) :=
  ⟨by decide, canvasWidth_uniform [{ hash := "A" }] (by decide)⟩

lemma getLastD_eq_getLast {l : List Nat} (h : l ≠ []) : l.getLastD 0 = l.getLast h := by
  rw [List.getLastD_eq_getLast?, List.getLast?_eq_getLast l h]
  rfl

lemma getLastD_mem {l : List Nat} (h : l ≠ []) : l.getLastD 0 ∈ l := by
  rw [getLastD_eq_getLast h]
  exact List.getLast_mem h

lemma sorted_le_getLast {l : List Nat} (hl : List.Sorted (· ≤ ·) l) :
    ∀ x ∈ l, ∀ h : l ≠ [], x ≤ l.getLast h := by
  induction l with
  | nil => simp
  | cons a t ih =>
    intro x hx h
    cases t with
    | nil =>
      simp at hx
      simp [hx, List.getLast]
    | cons b t' =>
      rw [List.getLast_cons (by simp)]
      rcases List.mem_cons.1 hx with rfl | hx'
      · exact List.rel_of_sorted_cons hl _ (List.getLast_mem (by simp))
      · exact ih hl.of_cons x hx' (by simp)

lemma mapHas_append_single {res : List (String × Nat)} {p1 p2 : String} {v : Nat}
    (hne : p1 ≠ p2) (h2 : mapHas res p2 = false) :
    mapHas (res ++ [(p1, v)]) p2 = false := by
  simp only [mapHas, List.any_append, List.any_cons, List.any_nil, Bool.or_false]
  rw [mapHas] at h2
  simp [h2, hne]

/-- C4: an unreserved additional parent of a merge commit is reserved exactly
the smallest lane not currently among the reservation map's values, with
`nextLane` raised to exceed it; and for a commit whose two parents are both
previously unreserved, exactly one new lane is reserved — the second
parent's — and it is never the first parent's lane. -/
theorem merge_reserves_fresh_lane :
    (∀ (res : List (String × Nat)) (nl : Nat) (parent : String),
      mapHas res parent = false →
      ∃ L, reserveExtraParent (res, nl) parent = (mapSet res parent L, max nl (L + 1)) ∧
        L ∉ mapValues res ∧ (∀ m, m < L → m ∈ mapValues res) ∧ L < max nl (L + 1)) ∧
    (∀ (res : List (String × Nat)) (nl assignedLane : Nat) (p1 p2 : String),
      p1 ≠ p2 → mapHas res p1 = false → mapHas res p2 = false →
      ∃ L, reserveParents assignedLane [p1, p2] res nl =
          (mapSet (mapSet res p1 assignedLane) p2 L, max nl (L + 1)) ∧
        L ∉ mapValues (mapSet res p1 assignedLane) ∧ L ≠ assignedLane) := by
  have hstep : ∀ (res : List (String × Nat)) (nl : Nat) (parent : String),
      mapHas res parent = false →
      reserveExtraParent (res, nl) parent =
        (mapSet res parent (findFreeLane (mapValues res) 0 ((mapValues res).length + 1)),
          max nl (findFreeLane (mapValues res) 0 ((mapValues res).length + 1) + 1)) := by
    intro res nl parent h
    simp only [reserveExtraParent, h]
    simp
  constructor
  · intro res nl parent h
    obtain ⟨h1, _, h3⟩ := findFreeLane_not_mem (mapValues res)
    exact ⟨_, hstep res nl parent h, h1, fun m hm => h3 m hm, by omega⟩
  · intro res nl a p1 p2 hne h1 h2
    have hres1 : mapSet res p1 a = res ++ [(p1, a)] := mapSet_of_not_has a h1
    have h2' : mapHas (mapSet res p1 a) p2 = false := by
      rw [hres1]
      exact mapHas_append_single hne h2
    have hrp : reserveParents a [p1, p2] res nl = reserveExtraParent (mapSet res p1 a, nl) p2 := by
      simp only [reserveParents, h1]
      simp [List.foldl]
    obtain ⟨hfree, _, _⟩ := findFreeLane_not_mem (mapValues (mapSet res p1 a))
    refine ⟨_, by rw [hrp, hstep _ _ _ h2'], hfree, ?_⟩
    intro hLa
    apply hfree
    rw [hLa, hres1]
    simp [mapValues]

/-- Witness for `merge_reserves_fresh_lane` at concrete inputs. -/
theorem merge_reserves_fresh_lane_witness :
    (mapHas [("x", 0)] "p" = false ∧
      ∃ L, reserveExtraParent ([("x", 0)], 1) "p" = (mapSet [("x", 0)] "p" L, max 1 (L + 1)) ∧
        L ∉ mapValues [("x", 0)] ∧ (∀ m, m < L → m ∈ mapValues [("x", 0)]) ∧
        L < max 1 (L + 1)) ∧
    (("a" : String) ≠ "b" ∧ mapHas [] "a" = false ∧ mapHas [] "b" = false ∧
      ∃ L, reserveParents 0 ["a", "b"] [] 5 = (mapSet (mapSet [] "a" 0) "b" L, max 5 (L + 1)) ∧
        L ∉ mapValues (mapSet [] "a" 0) ∧ L ≠ 0) :=
  ⟨⟨by decide, merge_reserves_fresh_lane.1 [("x", 0)] 1 "p" (by decide)⟩,
    ⟨by decide, by decide, by decide,
      merge_reserves_fresh_lane.2 [] 5 0 "a" "b" (by decide) (by decide) (by decide)⟩⟩

/-- C2: for a non-empty selection, the range action payload carries the
selected commits' hashes in ascending row-index order (newest → oldest), and
a base parent hash equal to the first parent of the commit at the highest
selected index; when that oldest commit has a single parent the base is
exactly that parent. -/
theorem rangeAction_payload (commits : List GitCommit) (s : List Nat) (hs : s ≠ []) :
    ∃ sorted : List Nat,
      List.Sorted (· ≤ ·) sorted ∧ sorted.Perm s ∧
      (rangeActionMessage commits s).1 =
        sorted.map (fun i => (commits.getD i default).hash) ∧
      ∃ oldest, oldest ∈ s ∧ (∀ i ∈ s, i ≤ oldest) ∧
        (rangeActionMessage commits s).2 = (commits.getD oldest default).parents.head? ∧
        ∀ p, (commits.getD oldest default).parents = [p] →
          (rangeActionMessage commits s).2 = some p := by
  have hperm := List.perm_insertionSort (· ≤ ·) s
  have hne : List.insertionSort (· ≤ ·) s ≠ [] := by
    intro hnil
    have hlen := hperm.length_eq
    rw [hnil] at hlen
    exact hs (List.eq_nil_of_length_eq_zero hlen.symm)
  refine ⟨List.insertionSort (· ≤ ·) s, List.sorted_insertionSort _ s, hperm, rfl,
    (List.insertionSort (· ≤ ·) s).getLastD 0, hperm.mem_iff.1 (getLastD_mem hne), ?_, rfl, ?_⟩
  · intro i hi
    have hmem : i ∈ List.insertionSort (· ≤ ·) s := hperm.mem_iff.2 hi
    rw [getLastD_eq_getLast hne]
    exact sorted_le_getLast (List.sorted_insertionSort _ s) i hmem hne
  · intro p hp
    show (commits.getD ((List.insertionSort (· ≤ ·) s).getLastD 0) default).parents.head? = some p
    rw [hp]
    rfl

/-- Witness for `rangeAction_payload` at the two-row selection `[0, 1]` over
`squashDemo`. -/
theorem rangeAction_payload_witness :
    (([0, 1] : List Nat) ≠ []) ∧
    (∃ sorted : List Nat,
      List.Sorted (· ≤ ·) sorted ∧ sorted.Perm [0, 1] ∧
      (rangeActionMessage squashDemo [0, 1]).1 =
        sorted.map (fun i => (squashDemo.getD i default).hash) ∧
      ∃ oldest, oldest ∈ [0, 1] ∧ (∀ i ∈ [0, 1], i ≤ oldest) ∧
        (rangeActionMessage squashDemo [0, 1]).2 =
          (squashDemo.getD oldest default).parents.head? ∧
        ∀ p, (squashDemo.getD oldest default).parents = [p] →
          (rangeActionMessage squashDemo [0, 1]).2 = some p) :=
  ⟨by decide, rangeAction_payload squashDemo [0, 1] (by decide)⟩

/-- C6: a parent hash absent from the commit list fails closed in the edge
router: `findIndex` yields no row (`-1`), no passthrough segment and no
outgoing cross-lane connector names that parent, and the absent edge
contributes nothing to the outgoing own-lane half segment decision (removing
the absent parent from the parent list leaves `hasOutgoing` unchanged). -/
theorem absent_parent_fails_closed (commits : List GitCommit) (p : String)
    (habs : ∀ c ∈ commits, c.hash ≠ p) :
    findIndex commits p = -1 ∧
    (∀ lanes index lane, ∀ s ∈ passthroughSegments commits lanes index lane, s.2.1 ≠ p) ∧
    (∀ (index : Nat) (c : GitCommit), hasOutgoing commits index c =
      (c.parents.filter (fun q => q != p)).any
        (fun q => decide (findIndex commits q > (index : Int)))) ∧
    (∀ lanes index c lane, ∀ s ∈ outgoingConnectors commits lanes index c lane, s.1 ≠ p) := by
  have hfi : findIndex commits p = -1 := by
    unfold findIndex
    have : commits.findIdx? (fun c => c.hash == p) = none := by
      rw [List.findIdx?_eq_none_iff]
      intro c hc
      simpa using habs c hc
    rw [this]
  have hemit : ∀ (index : Nat), ¬ (findIndex commits p > (index : Int)) := by
    intro index h
    rw [hfi] at h
    omega
  refine ⟨hfi, ?_, ?_, ?_⟩
  · intro lanes index lane s hs hsp
    obtain ⟨inner, hinner, hsin⟩ := List.mem_flatten.1 hs
    obtain ⟨i, _, hi⟩ := List.mem_map.1 hinner
    rw [← hi] at hsin
    obtain ⟨parent, _, hf⟩ := List.mem_filterMap.1 hsin
    split at hf
    next hcond =>
      split at hf
      next pl hpl =>
        split at hf
        next hpll =>
          have heq : (i, parent, pl) = s := Option.some_inj.1 hf
          rw [← heq] at hsp
          simp at hsp
          rw [hsp] at hcond
          exact hemit index hcond
        next => simp at hf
      next => simp at hf
    next => simp at hf
  · intro index c
    rw [Bool.eq_iff_iff]
    simp only [hasOutgoing, List.any_eq_true, List.mem_filter, decide_eq_true_eq]
    constructor
    · rintro ⟨q, hq, hcond⟩
      have hqp : q ≠ p := by
        intro hqp
        rw [hqp] at hcond
        exact hemit index (by simpa using hcond)
      exact ⟨q, ⟨hq, by simpa using hqp⟩, hcond⟩
    · rintro ⟨q, ⟨hq, _⟩, hcond⟩
      exact ⟨q, hq, hcond⟩
  · intro lanes index c lane s hs hsp
    obtain ⟨parent, _, hf⟩ := List.mem_filterMap.1 hs
    split at hf
    next hcond =>
      split at hf
      next pl hpl =>
        split at hf
        next hpll =>
          have heq : (parent, pl) = s := Option.some_inj.1 hf
          rw [← heq] at hsp
          simp at hsp
          rw [hsp] at hcond
          exact hemit index hcond
        next => simp at hf
      next => simp at hf
    next => simp at hf

/-- Witness for `absent_parent_fails_closed`: in the one-commit list `[A]`
whose parent `B` is outside the window, the absent hash `B` triggers no
edge emission. -/
theorem absent_parent_fails_closed_witness :
    (∀ c ∈ ([{ hash := "A", parents := ["B"] }] : List GitCommit), c.hash ≠ "B") ∧
    (findIndex [{ hash := "A", parents := ["B"] }] "B" = -1 ∧
      (∀ lanes index lane,
        ∀ s ∈ passthroughSegments [{ hash := "A", parents := ["B"] }] lanes index lane,
          s.2.1 ≠ "B") ∧
      (∀ (index : Nat) (c : GitCommit),
        hasOutgoing [{ hash := "A", parents := ["B"] }] index c =
          (c.parents.filter (fun q => q != "B")).any
            (fun q => decide (findIndex [{ hash := "A", parents := ["B"] }] q > (index : Int)))) ∧
      (∀ lanes index c lane,
        ∀ s ∈ outgoingConnectors [{ hash := "A", parents := ["B"] }] lanes index c lane,
          s.1 ≠ "B")) :=
  ⟨by decide, absent_parent_fails_closed [{ hash := "A", parents := ["B"] }] "B" (by decide)⟩

lemma mapHas_processCommit {st : LaneState} {h : String} (c : GitCommit)
    (hh : mapHas st.commitLanes h = true) :
    mapHas (processCommit st c).commitLanes h = true := by
  simp only [processCommit]
  by_cases hres : mapHas st.reservedLanes c.hash
  · rw [if_pos hres]
    exact mapHas_mapSet_of_has hh
  · rw [if_neg hres]
    exact mapHas_mapSet_of_has hh

lemma mapHas_foldl_processCommit (cs : List GitCommit) :
    ∀ (st : LaneState) (h : String), mapHas st.commitLanes h = true →
      mapHas (List.foldl processCommit st cs).commitLanes h = true := by
  induction cs with
  | nil => intro st h hh; exact hh
  | cons c cs ih =>
    intro st h hh
    exact ih _ h (mapHas_processCommit c hh)

lemma chain_fold (rest : List GitCommit) :
    ∀ (c : GitCommit) (cl res : List (String × Nat)) (nl : Nat),
    isLinearChain (c :: rest) = true →
    (∀ p ∈ cl, p.2 = 0) →
    ((res = [] ∧ nl = 0) ∨ (res = [(c.hash, 0)] ∧ nl = 1)) →
    (∀ p ∈ (List.foldl processCommit ⟨cl, res, nl⟩ (c :: rest)).commitLanes, p.2 = 0) ∧
    (∀ d ∈ (c :: rest),
      mapHas (List.foldl processCommit ⟨cl, res, nl⟩ (c :: rest)).commitLanes d.hash = true) := by
  induction rest with
  | nil =>
    intro c cl res nl hchain hcl hready
    have hpar : c.parents = [] := by
      simp only [isLinearChain] at hchain
      exact List.isEmpty_iff.1 hchain
    have hstep : processCommit ⟨cl, res, nl⟩ c = ⟨mapSet cl c.hash 0, [], 1⟩ := by
      rcases hready with ⟨rfl, rfl⟩ | ⟨rfl, rfl⟩
      · simp [processCommit, mapHas, hpar, reserveParents]
      · simp [processCommit, mapHas, mapGet, mapDelete, hpar, reserveParents, List.find?]
    simp only [List.foldl_cons, List.foldl_nil, hstep]
    constructor
    · intro p hp
      rcases mem_mapSet hp with rfl | hp
      · rfl
      · exact hcl p hp
    · intro d hd
      have : d = c := by simpa using hd
      rw [this]
      exact mapHas_mapSet_self cl c.hash 0
  | cons d rest ih =>
    intro c cl res nl hchain hcl hready
    have hchain2 : (c.parents == [d.hash]) = true ∧ isLinearChain (d :: rest) = true := by
      simpa [isLinearChain, Bool.and_eq_true] using hchain
    have hpar : c.parents = [d.hash] := by simpa using hchain2.1
    have hrp : reserveParents 0 c.parents [] 1 = ([(d.hash, 0)], 1) := by
      rw [hpar]
      simp [reserveParents, mapHas, mapSet]
    have hstep : processCommit ⟨cl, res, nl⟩ c =
        ⟨mapSet cl c.hash 0, [(d.hash, 0)], 1⟩ := by
      rcases hready with ⟨rfl, rfl⟩ | ⟨rfl, rfl⟩
      · simp [processCommit, mapHas, hrp]
      · simp [processCommit, mapHas, mapGet, mapDelete, hrp, List.find?]
    have hcl2 : ∀ p ∈ mapSet cl c.hash 0, p.2 = 0 := by
      intro p hp
      rcases mem_mapSet hp with rfl | hp
      · rfl
      · exact hcl p hp
    have hfold : List.foldl processCommit (⟨cl, res, nl⟩ : LaneState) (c :: d :: rest) =
        List.foldl processCommit (⟨mapSet cl c.hash 0, [(d.hash, 0)], 1⟩ : LaneState)
          (d :: rest) := by
      rw [List.foldl_cons, hstep]
    obtain ⟨hz, hhas⟩ := ih d (mapSet cl c.hash 0) [(d.hash, 0)] 1 hchain2.2 hcl2
      (Or.inr ⟨rfl, rfl⟩)
    rw [hfold]
    refine ⟨hz, ?_⟩
    intro e he
    rcases List.mem_cons.1 he with rfl | he
    · exact mapHas_foldl_processCommit (d :: rest) _ e.hash (mapHas_mapSet_self cl e.hash 0)
    · exact hhas e he

/-- C5: on every commit list forming a single unbroken parent chain (each
commit's parents are exactly the next commit's hash, the last commit has
none), the Lane Allocator assigns lane 0 to every commit. -/
theorem linearChain_lane_zero (commits : List GitCommit)
    (h : isLinearChain commits = true) :
    ∀ c ∈ commits, mapGet (calculateLanes commits) c.hash = some 0 := by
  cases commits with
  | nil => intro c hc; simp at hc
  | cons c rest =>
    obtain ⟨hz, hhas⟩ := chain_fold rest c [] [] 0 h (by simp) (Or.inl ⟨rfl, rfl⟩)
    intro d hd
    exact mapGet_eq_zero (fun p hp => hz p hp) (hhas d hd)

/-- Witness for `linearChain_lane_zero` on the three-commit chain. -/
theorem linearChain_lane_zero_witness :
    isLinearChain chainDemo = true ∧ mapGet (calculateLanes chainDemo) "B" = some 0 :=
  ⟨by decide,
    linearChain_lane_zero chainDemo (by decide) { hash := "B", parents := ["C"] } (by decide)⟩

lemma mapGet_foldl_processCommit (cs : List GitCommit) :
    ∀ (st : LaneState) (h : String), (∀ c ∈ cs, c.hash ≠ h) →
      mapGet (List.foldl processCommit st cs).commitLanes h = mapGet st.commitLanes h := by
  induction cs with
  | nil => intro st h _; rfl
  | cons c cs ih =>
    intro st h hne
    rw [List.foldl_cons, ih _ h (fun d hd => hne d (List.mem_cons_of_mem c hd))]
    have hch : h ≠ c.hash := fun hh => hne c (List.mem_cons_self c cs) hh.symm
    simp only [processCommit]
    by_cases hres : mapHas st.reservedLanes c.hash
    · rw [if_pos hres]
      exact mapGet_mapSet_ne hch
    · rw [if_neg hres]
      exact mapGet_mapSet_ne hch

/-- C10: for every non-empty commit list whose first commit's hash is not
repeated later (hashes are unique per the data model), the Lane Allocator
assigns lane 0 to the first commit, regardless of its parents or refs. -/
theorem first_commit_lane_zero (c : GitCommit) (rest : List GitCommit)
    (h : ∀ d ∈ rest, d.hash ≠ c.hash) :
    mapGet (calculateLanes (c :: rest)) c.hash = some 0 := by
  simp only [calculateLanes, List.foldl_cons]
  rw [mapGet_foldl_processCommit rest _ c.hash h]
  simp only [processCommit, initLaneState]
  rw [if_neg (by simp [mapHas])]
  rw [show (mapSet ([] : List (String × Nat)) c.hash 0) = [(c.hash, 0)] from
    mapSet_of_not_has 0 (by simp [mapHas])]
  simp [mapGet, List.find?]

/-- Witness for `first_commit_lane_zero`: a merge commit with refs at the
head of a two-commit list gets lane 0. -/
theorem first_commit_lane_zero_witness :
    (∀ d ∈ ([{ hash := "X" }] : List GitCommit), d.hash ≠ "M") ∧
    mapGet (calculateLanes
      ({ hash := "M", parents := ["X", "Y"], refs := ["HEAD -> main"] } :: [{ hash := "X" }]))
      "M" = some 0 :=
  ⟨by decide,
    first_commit_lane_zero { hash := "M", parents := ["X", "Y"], refs := ["HEAD -> main"] }
      [{ hash := "X" }] (by decide)⟩

lemma laneInvariant_def (st : LaneState) :
    LaneInvariant st ↔ ResInvariant st.reservedLanes st.commitLanes st.nextLane :=
  Iff.rfl

lemma snd_mem_mapValues {m : List (String × Nat)} {p : String × Nat} (hp : p ∈ m) :
    p.2 ∈ mapValues m :=
  List.mem_map_of_mem Prod.snd hp

lemma reserveExtraParent_inv {cl : List (String × Nat)} (acc : List (String × Nat) × Nat)
    (parent : String) (h : ResInvariant acc.1 cl acc.2) :
    ResInvariant (reserveExtraParent acc parent).1 cl (reserveExtraParent acc parent).2 := by
  obtain ⟨hinj, hres, hcl⟩ := h
  unfold reserveExtraParent
  by_cases hh : mapHas acc.1 parent
  · rw [if_pos hh]
    exact ⟨hinj, hres, hcl⟩
  · rw [if_neg hh]
    show ResInvariant
      (mapSet acc.1 parent (findFreeLane (mapValues acc.1) 0 ((mapValues acc.1).length + 1))) cl
      (max acc.2 (findFreeLane (mapValues acc.1) 0 ((mapValues acc.1).length + 1) + 1))
    obtain ⟨hfree, -, -⟩ := findFreeLane_not_mem (mapValues acc.1)
    have hh' : mapHas acc.1 parent = false := by simpa using hh
    rw [mapSet_of_not_has _ hh']
    refine ⟨?_, ?_, ?_⟩
    · intro p hp q hq hne
      rcases List.mem_append.1 hp with hp | hp
      · rcases List.mem_append.1 hq with hq | hq
        · exact hinj p hp q hq hne
        · obtain rfl := List.mem_singleton.1 hq
          intro hpa
          have hmem2 := hpa ▸ snd_mem_mapValues hp
          exact hfree hmem2
      · obtain rfl := List.mem_singleton.1 hp
        rcases List.mem_append.1 hq with hq | hq
        · intro hpa
          have hmem2 := hpa.symm ▸ snd_mem_mapValues hq
          exact hfree hmem2
        · obtain rfl := List.mem_singleton.1 hq
          exact absurd rfl hne
    · intro p hp
      rcases List.mem_append.1 hp with hp | hp
      · exact lt_of_lt_of_le (hres p hp) (le_max_left _ _)
      · rw [List.mem_singleton.1 hp]
        exact lt_of_lt_of_le (Nat.lt_succ_self _) (le_max_right _ _)
    · intro p hp
      exact lt_of_lt_of_le (hcl p hp) (le_max_left _ _)

lemma foldl_reserveExtraParent_inv {cl : List (String × Nat)} (parents : List String) :
    ∀ acc : List (String × Nat) × Nat, ResInvariant acc.1 cl acc.2 →
      ResInvariant (List.foldl reserveExtraParent acc parents).1 cl
        (List.foldl reserveExtraParent acc parents).2 := by
  induction parents with
  | nil => intro acc h; exact h
  | cons p ps ih =>
    intro acc h
    rw [List.foldl_cons]
    exact ih _ (reserveExtraParent_inv acc p h)

lemma reserveParents_inv {cl : List (String × Nat)} (a : Nat) (parents : List String)
    (res : List (String × Nat)) (nl : Nat)
    (h : ResInvariant res cl nl) (ha : a < nl) (hfresh : a ∉ mapValues res) :
    ResInvariant (reserveParents a parents res nl).1 cl (reserveParents a parents res nl).2 := by
  cases parents with
  | nil => exact h
  | cons fp ps =>
    have hbase : ResInvariant (if mapHas res fp then res else mapSet res fp a) cl nl := by
      by_cases hfp : mapHas res fp
      · rw [if_pos hfp]; exact h
      · have hfp' : mapHas res fp = false := by simpa using hfp
        rw [if_neg hfp, mapSet_of_not_has a hfp']
        obtain ⟨hinj, hres, hcl⟩ := h
        refine ⟨?_, ?_, hcl⟩
        · intro p hp q hq hne
          rcases List.mem_append.1 hp with hp | hp
          · rcases List.mem_append.1 hq with hq | hq
            · exact hinj p hp q hq hne
            · obtain rfl := List.mem_singleton.1 hq
              intro hpa
              have hmem2 := hpa ▸ snd_mem_mapValues hp
              exact hfresh hmem2
          · obtain rfl := List.mem_singleton.1 hp
            rcases List.mem_append.1 hq with hq | hq
            · intro hpa
              have hmem2 := hpa.symm ▸ snd_mem_mapValues hq
              exact hfresh hmem2
            · obtain rfl := List.mem_singleton.1 hq
              exact absurd rfl hne
        · intro p hp
          rcases List.mem_append.1 hp with hp | hp
          · exact hres p hp
          · rw [List.mem_singleton.1 hp]
            exact ha
    exact foldl_reserveExtraParent_inv ps
      ((if mapHas res fp then res else mapSet res fp a), nl) hbase

lemma processCommit_inv (st : LaneState) (c : GitCommit) (h : LaneInvariant st) :
    LaneInvariant (processCommit st c) := by
  obtain ⟨hinj, hres, hcl⟩ := h
  unfold processCommit
  by_cases hh : mapHas st.reservedLanes c.hash
  · rw [if_pos hh]
    obtain ⟨l, hl⟩ := mapGet_isSome_of_has hh
    have hmem : (c.hash, l) ∈ st.reservedLanes := mapGet_mem hl
    have hgd : (mapGet st.reservedLanes c.hash).getD 0 = l := by rw [hl]; rfl
    show LaneInvariant
      ⟨mapSet st.commitLanes c.hash ((mapGet st.reservedLanes c.hash).getD 0),
        (reserveParents ((mapGet st.reservedLanes c.hash).getD 0) c.parents
          (mapDelete st.reservedLanes c.hash) st.nextLane).1,
        (reserveParents ((mapGet st.reservedLanes c.hash).getD 0) c.parents
          (mapDelete st.reservedLanes c.hash) st.nextLane).2⟩
    rw [hgd]
    rw [laneInvariant_def]
    apply reserveParents_inv
    · refine ⟨?_, ?_, ?_⟩
      · intro p hp q hq hne
        exact hinj p (List.mem_filter.1 hp).1 q (List.mem_filter.1 hq).1 hne
      · intro p hp
        exact hres p (List.mem_filter.1 hp).1
      · intro p hp
        rcases mem_mapSet hp with rfl | hp
        · exact hres _ hmem
        · exact hcl p hp
    · exact hres _ hmem
    · intro hin
      obtain ⟨q, hq, hq2⟩ := List.mem_map.1 hin
      obtain ⟨hqres, hqne⟩ := List.mem_filter.1 hq
      have hne : q.1 ≠ c.hash := by simpa using hqne
      exact hinj q hqres (c.hash, l) hmem hne hq2
  · rw [if_neg hh]
    show LaneInvariant
      ⟨mapSet st.commitLanes c.hash st.nextLane,
        (reserveParents st.nextLane c.parents st.reservedLanes (st.nextLane + 1)).1,
        (reserveParents st.nextLane c.parents st.reservedLanes (st.nextLane + 1)).2⟩
    rw [laneInvariant_def]
    apply reserveParents_inv
    · refine ⟨hinj, ?_, ?_⟩
      · intro p hp
        exact Nat.lt_succ_of_lt (hres p hp)
      · intro p hp
        rcases mem_mapSet hp with rfl | hp
        · exact Nat.lt_succ_self _
        · exact Nat.lt_succ_of_lt (hcl p hp)
    · exact Nat.lt_succ_self _
    · intro hin
      obtain ⟨q, hq, hq2⟩ := List.mem_map.1 hin
      exact absurd (hq2 ▸ hres q hq) (lt_irrefl _)

lemma foldl_processCommit_inv (cs : List GitCommit) :
    ∀ st : LaneState, LaneInvariant st → LaneInvariant (List.foldl processCommit st cs) := by
  induction cs with
  | nil => intro st h; exact h
  | cons c cs ih =>
    intro st h
    rw [List.foldl_cons]
    exact ih _ (processCommit_inv st c h)

/-- C9: after processing any prefix of any commit list, the allocator's
pending-reservation map gives distinct lanes to distinct hashes, and every
reserved lane and every lane assigned so far is strictly below `nextLane`. -/
theorem laneAllocator_invariant (commits : List GitCommit) (k : Nat) :
    LaneInvariant (List.foldl processCommit initLaneState (commits.take k)) := by
  apply foldl_processCommit_inv
  exact ⟨fun p hp => absurd hp (by simp [initLaneState]),
    fun p hp => absurd hp (by simp [initLaneState]),
    fun p hp => absurd hp (by simp [initLaneState])⟩
